import Mathlib

/-!
Verification development for the PageSpeed batch scraper (`scraper.py`).

The file embeds, as executable Lean definitions, the parts of the source
that the specification talks about:

* the JSON value model and the Python-style dictionary access used by
  `fetch_pagespeed_metrics` when it turns a raw report into a metrics
  record (lines 35-75 of the source);
* the retry loop of `fetch_pagespeed_metrics` (lines 17-102), driven by an
  oracle giving the outcome of each HTTP attempt;
* `normalize_url` (lines 145-159), including a model of CPython
  `urllib.parse.urlparse` (tab/CR/LF removal before parsing, scheme
  detection, netloc extraction with the mismatched-bracket `ValueError`,
  fragment, query and params splitting); the general theorem about it is
  stated for ASCII netlocs, where `str.lower()` and the modelled
  lowering agree and CPython's non-ASCII netloc checks cannot fire;
* `load_json_file` (lines 132-140) over an abstract file state;
* the resume / merge engine of `main` (lines 176-259): the identity index
  (`existing_map`), resume-point selection, skip-vs-fetch classification
  and the per-URL merge loop, driven by a fetch oracle.

Theorems about these definitions then settle the frozen claims C1-C10.
-/

/-- JSON values, as decoded by `response.json()` / `json.load`.  Python
`None` is identified with JSON `null`; objects are association lists with
(as after JSON decoding) pairwise-distinct keys, looked up first-match. -/
inductive Json where
  | null : Json
  | bool (b : Bool) : Json
  | num (q : ℚ) : Json
  | str (s : String) : Json
  | arr (elts : List Json) : Json
  | obj (fields : List (String × Json)) : Json

/-- Python exceptions that the extraction code can raise and that are not
`requests` exceptions: `AttributeError` (calling `.get` on a non-dict) and
`TypeError` (`len` or `/` on an unsupported operand). -/
inductive PyErr where
  | attrError : PyErr
  | typeError : PyErr
deriving DecidableEq

/-- First-match lookup in a JSON object's field list (Python `dict` access;
decoded JSON objects have unique keys, so first-match is exact). -/
def jlookup : List (String × Json) → String → Option Json
  | [], _ => none
  | (k, v) :: rest, key => if k = key then some v else jlookup rest key

/-- Python `j.get(key, default)`: succeeds only when `j` is a dict,
otherwise raises `AttributeError` (e.g. `"x".get(...)`). -/
def pyGetD (j : Json) (key : String) (dflt : Json) : Except PyErr Json :=
  match j with
  | .obj fields => .ok ((jlookup fields key).getD dflt)
  | _ => .error .attrError

/-- Python truthiness of a decoded JSON value. -/
def pyTruthy : Json → Bool
  | .null => false
  | .bool b => b
  | .num q => q ≠ 0
  | .str s => s ≠ ""
  | .arr elts => !elts.isEmpty
  | .obj fields => !fields.isEmpty

/-- The helper `num(audit_key)` of the source: reads
`audits.get(audit_key, {})`, and returns its `numericValue` when the audit
is a dict, `None` otherwise.  Raises when `audits` itself is not a dict. -/
def numAudit (audits : Json) (auditKey : String) : Except PyErr Json := do
  let v ← pyGetD audits auditKey (.obj [])
  match v with
  | .obj fields => pure ((jlookup fields "numericValue").getD .null)
  | _ => pure .null

/-- The helper `safe_list_count(audit_key)` of the source:
`len(audits.get(audit_key, {}).get("details", {}).get("items") or [])`.
Python `len` works on sequences and mappings and raises `TypeError`
otherwise. -/
def safe_list_count (audits : Json) (auditKey : String) : Except PyErr Json := do
  let a ← pyGetD audits auditKey (.obj [])
  let details ← pyGetD a "details" (.obj [])
  let itemsRaw ← pyGetD details "items" .null
  let items := if pyTruthy itemsRaw then itemsRaw else .arr []
  match items with
  | .arr elts => pure (.num elts.length)
  | .str s => pure (.num s.length)
  | .obj fields => pure (.num fields.length)
  | _ => .error .typeError

/-- `num("total-byte-weight") / 1024` when the audit value is not `None`:
division succeeds on numbers (and bools, which Python treats as ints) and
raises `TypeError` otherwise. -/
def pageSizeKb (tbw : Json) : Except PyErr Json :=
  match tbw with
  | .null => pure .null
  | .num q => pure (.num (q / 1024))
  | .bool b => pure (.num ((if b then (1 : ℚ) else 0) / 1024))
  | _ => .error .typeError

/-- The flat metrics record built by `fetch_pagespeed_metrics`
(lines 49-73 of the source).  Field values are the raw JSON values the
code stores (a missing measurement is stored as `null`). -/
structure Metrics where
  url : Json
  TTFB_ms : Json
  FCP_ms : Json
  LCP_ms : Json
  SpeedIndex_ms : Json
  TBT_ms : Json
  TTI_ms : Json
  noOfRequests : Json
  pageSize_kb : Json
  javascriptExecution_ms : Json
  loadTime_ms : Json

/-- The extractor inside `fetch_pagespeed_metrics` (source lines 35-73):
`lr = data.get("lighthouseResult", {})`, `audits = lr.get("audits", {})`,
then the metrics dict, evaluated in source order. -/
def extract (data : Json) (requestedUrl : String) : Except PyErr Metrics := do
  let lr ← pyGetD data "lighthouseResult" (.obj [])
  let audits ← pyGetD lr "audits" (.obj [])
  let finalUrl ← pyGetD lr "finalUrl" .null
  let urlv := if pyTruthy finalUrl then finalUrl else .str requestedUrl
  let ttfb ← numAudit audits "server-response-time"
  let fcp ← numAudit audits "first-contentful-paint"
  let lcp ← numAudit audits "largest-contentful-paint"
  let si ← numAudit audits "speed-index"
  let tbt ← numAudit audits "total-blocking-time"
  let tti ← numAudit audits "interactive"
  let reqs ← safe_list_count audits "network-requests"
  let tbw ← numAudit audits "total-byte-weight"
  let psize ← pageSizeKb tbw
  let js ← numAudit audits "bootup-time"
  let timing ← pyGetD lr "timing" (.obj [])
  let total ← pyGetD timing "total" .null
  pure { url := urlv, TTFB_ms := ttfb, FCP_ms := fcp, LCP_ms := lcp,
         SpeedIndex_ms := si, TBT_ms := tbt, TTI_ms := tti,
         noOfRequests := reqs, pageSize_kb := psize,
         javascriptExecution_ms := js, loadTime_ms := total }

/-- Outcome of one HTTP attempt inside the retry loop: either a response
(with status code and a body that JSON-decodes or not) or a
transport-level failure (`requests.exceptions.RequestException`:
connection error, timeout, ...). -/
inductive Attempt where
  | resp (status : ℕ) (body : Except Unit Json) : Attempt
  | transportErr : Attempt

/-- The exceptions that can escape one attempt of
`fetch_pagespeed_metrics`: `requests.exceptions.HTTPError` with a status,
a transport `RequestException`, a body-decode failure
(`requests.exceptions.JSONDecodeError`), or an uncaught Python error from
the extraction code. -/
inductive FetchErr where
  | http (status : ℕ) : FetchErr
  | transport : FetchErr
  | decode : FetchErr
  | py (e : PyErr) : FetchErr
deriving DecidableEq

/-- One attempt of the fetcher body (source lines 27-75):
`raise_for_status` raises `HTTPError` exactly for statuses in `[400,600)`
(the two calls on lines 30 and 32 have the same combined effect); then
`response.json()` may fail to decode; then the extractor runs and may
raise a Python error. -/
def attemptEval (url : String) (a : Attempt) : Except FetchErr Metrics :=
  match a with
  | .transportErr => .error .transport
  | .resp status body =>
    if 400 ≤ status ∧ status < 600 then .error (.http status)
    else
      match body with
      | .error _ => .error .decode
      | .ok data =>
        match extract data url with
        | .error e => .error (.py e)
        | .ok m => .ok m

/-- Result of a whole `fetch_pagespeed_metrics` call: the value returned
or the exception propagated (`outcome = none` models the implicit `None`
returned when `retries = 0` makes the loop body never run), the number of
attempts performed, and the sequence of back-off sleeps in order. -/
structure FetchResult where
  outcome : Option (Except FetchErr Metrics)
  attempts : ℕ
  sleeps : List ℚ

/-- The retry loop of `fetch_pagespeed_metrics` over the remaining attempt
numbers (source lines 25-102).  A 4xx `HTTPError` is re-raised at once
(lines 84-86); other `HTTPError`s, transport errors and decode errors
retry while attempts remain, sleeping `backoff_factor * 2 ** (attempt - 1)`
(lines 88-102); a Python error from the extractor matches no `except`
clause and propagates at once. -/
def fetchGo (oracle : ℕ → Attempt) (url : String) (backoff : ℚ) :
    List ℕ → List ℚ → FetchResult
  | [], slept => { outcome := none, attempts := 0, sleeps := slept }
  | n :: rest, slept =>
    match attemptEval url (oracle n) with
    | .ok m => { outcome := some (.ok m), attempts := n, sleeps := slept }
    | .error e =>
      match e with
      | .http status =>
        if 400 ≤ status ∧ status < 500 then
          { outcome := some (.error (.http status)), attempts := n, sleeps := slept }
        else
          match rest with
          | [] => { outcome := some (.error (.http status)), attempts := n, sleeps := slept }
          | _ :: _ => fetchGo oracle url backoff rest (slept ++ [backoff * 2 ^ (n - 1)])
      | .transport =>
        match rest with
        | [] => { outcome := some (.error .transport), attempts := n, sleeps := slept }
        | _ :: _ => fetchGo oracle url backoff rest (slept ++ [backoff * 2 ^ (n - 1)])
      | .decode =>
        match rest with
        | [] => { outcome := some (.error .decode), attempts := n, sleeps := slept }
        | _ :: _ => fetchGo oracle url backoff rest (slept ++ [backoff * 2 ^ (n - 1)])
      | .py pe =>
        { outcome := some (.error (.py pe)), attempts := n, sleeps := slept }

/-- `fetch_pagespeed_metrics(url, retries, backoff_factor)` with the
attempt outcomes supplied by `oracle` (attempt numbers run 1, .., retries
as in `range(1, retries + 1)`).  The source defaults are `retries = 3`,
`backoff_factor = 1.0`. -/
def fetch_pagespeed_metrics (oracle : ℕ → Attempt) (url : String)
    (retries : ℕ) (backoff_factor : ℚ) : FetchResult :=
  fetchGo oracle url backoff_factor (List.range' 1 retries) []

/-- An exception is retriable for the loop when some `except` clause
retries it: any `HTTPError` outside `[400,500)`, a transport error, or a
decode error.  Extraction errors match no clause at all. -/
def isRetriable : FetchErr → Bool
  | .http status => if 400 ≤ status ∧ status < 500 then false else true
  | .transport => true
  | .decode => true
  | .py _ => false

/-- Characters allowed in a URL scheme by `urllib.parse`
(`scheme_chars`): letters, digits, `+`, `-`, `.`. -/
def schemeChar (c : Char) : Bool :=
  c.isAlpha || c.isDigit || c = '+' || c = '-' || c = '.'

/-- Split a character list at the first occurrence of `target`
(`str.find` / `str.split(c, 1)`): the part before and the part after. -/
def splitAtChar (target : Char) : List Char → Option (List Char × List Char)
  | [] => none
  | c :: rest =>
    if c = target then some ([], rest)
    else
      match splitAtChar target rest with
      | some (pre, post) => some (c :: pre, post)
      | none => none

/-- Does the list start with the three characters of a scheme separator? -/
def startsWithSep : List Char → Bool
  | ':' :: '/' :: '/' :: _ => true
  | _ => false

/-- Python `'://' in u` (source line 150). -/
def hasSchemeSep : List Char → Bool
  | [] => false
  | c :: rest => startsWithSep (c :: rest) || hasSchemeSep rest

/-- Scheme detection of `urlsplit`: if the first `:` is preceded by a
non-empty run of scheme characters starting with an ASCII letter, the
scheme (and the colon) is removed; otherwise the input is unchanged. -/
def splitScheme (u : List Char) : List Char :=
  match splitAtChar ':' u with
  | some (pre, post) =>
    match pre with
    | [] => u
    | c :: _ => if c.isAlpha && pre.all schemeChar then post else u
  | none => u

/-- A character ending the netloc in `_splitnetloc`. -/
def isNetlocStop (c : Char) : Bool := c = '/' || c = '?' || c = '#'

/-- `_splitnetloc`: the netloc runs to the first of `/`, `?`, `#`. -/
def takeNetloc : List Char → (List Char × List Char)
  | [] => ([], [])
  | c :: rest =>
    if isNetlocStop c then ([], c :: rest)
    else
      let (nl, rem) := takeNetloc rest
      (c :: nl, rem)

/-- Netloc extraction of `urlsplit`: only when the remainder starts with
`//`; a netloc containing one of `[`, `]` without the other raises
`ValueError` ("Invalid IPv6 URL"). -/
def splitNetloc (u : List Char) : Except Unit (List Char × List Char) :=
  match u with
  | '/' :: '/' :: rest =>
    let (nl, rem) := takeNetloc rest
    if (nl.contains '[' && !nl.contains ']') || (nl.contains ']' && !nl.contains '[') then
      .error ()
    else .ok (nl, rem)
  | _ => .ok ([], u)

/-- Drop the fragment: everything from the first `#` on. -/
def dropFrag (u : List Char) : List Char :=
  match splitAtChar '#' u with
  | some (pre, _) => pre
  | none => u

/-- Drop the query: everything from the first `?` on. -/
def dropQuery (u : List Char) : List Char :=
  match splitAtChar '?' u with
  | some (pre, _) => pre
  | none => u

/-- Split a list at its last `/`: the parts before and after it. -/
def splitLastSlash : List Char → Option (List Char × List Char)
  | [] => none
  | c :: rest =>
    match splitLastSlash rest with
    | some (a, b) => some (c :: a, b)
    | none => if c = '/' then some ([], rest) else none

/-- `urlparse`'s params handling: when the path contains `;`,
`_splitparams` cuts the path at the first `;` at or after the last `/`
(or at the first `;` when there is no `/`). -/
def dropParams (p : List Char) : List Char :=
  if p.contains ';' then
    match splitLastSlash p with
    | some (a, b) =>
      match splitAtChar ';' b with
      | some (b1, _) => a ++ '/' :: b1
      | none => p
    | none =>
      match splitAtChar ';' p with
      | some (p1, _) => p1
      | none => p
  else p

/-- The characters `urlsplit` deletes from the whole URL before any
parsing (`_UNSAFE_URL_BYTES_TO_REMOVE`): tab, carriage return, newline. -/
def unsafeUrlChar (c : Char) : Bool :=
  c = '\t' || c = '\r' || c = '\n'

/-- `urlsplit`'s removal of tab / CR / LF from the URL before parsing. -/
def stripUnsafe (l : List Char) : List Char :=
  l.filter (fun c => !unsafeUrlChar c)

/-- The `netloc` and `path` attributes of `urllib.parse.urlparse`:
tab/CR/LF removal, then scheme removal, `//`-netloc extraction (with the
mismatched-bracket `ValueError`), fragment, query and params splitting,
in CPython's order.  CPython's remaining netloc error paths —
`_checknetloc`'s NFKC check and bracketed-host validation — fire only
for non-ASCII or bracketed netlocs, which the theorems below exclude by
hypothesis, so they are not modelled. -/
def urlparseHostPath (u : List Char) : Except Unit (List Char × List Char) :=
  let rest := splitScheme (stripUnsafe u)
  match splitNetloc rest with
  | .error e => .error e
  | .ok (nl, rem) =>
    let path0 := dropQuery (dropFrag rem)
    .ok (nl, dropParams path0)

/-- Python `str.lower()`.  `Char.toLower` lowers exactly the basic latin
letters, which agrees with `str.lower()` on ASCII strings; the theorems
below restrict the lowered netloc to ASCII by hypothesis. -/
def toLowerL (l : List Char) : List Char := l.map Char.toLower

/-- Python `str.rstrip('/')`: remove every trailing `/`. -/
def rstripSlash (l : List Char) : List Char :=
  (l.reverse.dropWhile (fun c => c = '/')).reverse

/-- `host[4:]` when the (already lower-cased) host starts with `www.`. -/
def stripWWW (l : List Char) : List Char :=
  match l with
  | 'w' :: 'w' :: 'w' :: '.' :: rest => rest
  | _ => l

/-- `normalize_url` (source lines 145-159): empty input is returned
unchanged; a default scheme is prepended when `'://'` is absent; on a
parse error the (possibly prepended) string is returned `rstrip`ped of
`/` and lower-cased; otherwise the result is the lower-cased,
`www.`-stripped netloc followed by the `/`-r-stripped path. -/
def normalize_url (s : String) : String :=
  if s = "" then s
  else
    let u := if hasSchemeSep s.data then s.data else "http://".data ++ s.data
    match urlparseHostPath u with
    | .error _ => String.mk (toLowerL (rstripSlash u))
    | .ok (nl, path) => String.mk (stripWWW (toLowerL nl) ++ rstripSlash path)

/-- One element of `existing_list`: the merge engine only ever reads the
`requested_url` and `url` fields of a record; `payload` stands for the
rest of the record (the metric fields), giving records an identity. -/
structure Item where
  requested_url : Option String
  url : Option String
  payload : ℕ
deriving DecidableEq

/-- Python truthiness of a string-or-`None` value. -/
def strTruthy : Option String → Bool
  | none => false
  | some s => s ≠ ""

/-- Python `a or b` on string-or-`None` values. -/
def pyOr (a b : Option String) : Option String :=
  if strTruthy a then a else b

/-- `normalize_url(item.get("requested_url") or item.get("url"))` (source
lines 195 and 238): `normalize_url(None)` is `None` because a falsy input
is returned unchanged. -/
def itemKey (it : Item) : Option String :=
  (pyOr it.requested_url it.url).map normalize_url

/-- The identity index: a mapping from normalized keys to records. -/
def IdMap : Type := String → Option Item

/-- `existing_map[k] = item`. -/
def setKey (m : IdMap) (k : String) (it : Item) : IdMap :=
  fun k' => if k' = k then some it else m k'

/-- One iteration of the index-building loop (source lines 183-187): for
each of `requested_url` and `url`, in that order, index the record under
the normalized value when the value is truthy. -/
def addItem (m : IdMap) (it : Item) : IdMap :=
  let m1 :=
    match it.requested_url with
    | some v => if v ≠ "" then setKey m (normalize_url v) it else m
    | none => m
  match it.url with
  | some v => if v ≠ "" then setKey m1 (normalize_url v) it else m1
  | none => m1

/-- The empty index. -/
def emptyMap : IdMap := fun _ => none

/-- `existing_map` built from `existing_list` (source lines 182-187);
later records win ties. -/
def existing_map (items : List Item) : IdMap :=
  items.foldl addItem emptyMap

/-- First index (counting from `i`) of an element satisfying `p`, as the
`next((i for i, u in enumerate(urls) if ...), None)` generator expression
and the `for idx, item in enumerate(existing_list)` loop of the source. -/
def findIdxFrom {α : Type} (p : α → Bool) : List α → ℕ → Option ℕ
  | [], _ => none
  | a :: rest, i => if p a then some i else findIdxFrom p rest (i + 1)

/-- Resume-point selection (source lines 189-204): returns the start
index into the URL list and whether the non-fatal "last URL not found"
warning was printed. -/
def resumeStart (noResume : Bool) (existing : List Item) (urls : List String) :
    ℕ × Bool :=
  if noResume then (0, false)
  else
    match existing.getLast? with
    | none => (0, false)
    | some lastIt =>
      match findIdxFrom (fun u => some (normalize_url u) == itemKey lastIt) urls 0 with
      | none => (0, true)
      | some i => (i + 1, false)

/-- The tail: the portion of the URL list a run classifies at all. -/
def tailUrls (noResume : Bool) (existing : List Item) (urls : List String) :
    List String :=
  urls.drop (resumeStart noResume existing urls).1

/-- Outcome of `fetch_pagespeed_metrics(url)` as seen by the merge loop:
a metrics record (its `requested_url` not yet set) or a raised error. -/
inductive FetchOutcome where
  | ok (it : Item) : FetchOutcome
  | err (e : FetchErr) : FetchOutcome

/-- Is the error an instance of `requests.exceptions.RequestException`,
the only class caught by the per-URL handler (source line 253)?
`HTTPError`, transport errors and `JSONDecodeError` are; Python errors
raised by the extraction code are not. -/
def isReqExc : FetchErr → Bool
  | .py _ => false
  | _ => true

/-- Skip-vs-fetch classification (source lines 210-215): a tail URL is
fetched when forced or when its normalized key is not in the index. -/
def toFetchPred (force : Bool) (m : IdMap) (u : String) : Bool :=
  force || (m (normalize_url u)).isNone

/-- Index update after a successful fetch (source lines 244-247): the
record is indexed under the requested key and, when truthy, under the
normalized final URL. -/
def updatedMap (m : IdMap) (keyReq : String) (metrics : Item) : IdMap :=
  let m1 := setKey m keyReq metrics
  match metrics.url with
  | some v => if v ≠ "" then setKey m1 (normalize_url v) metrics else m1
  | none => m1

/-- One iteration of the merge loop (source lines 225-255) for URL `u`:
on a caught fetch error the state is unchanged; on success the record
gets `requested_url := u`, then is either substituted for the first list
record whose `itemKey` equals the new key (when the key is in the index),
or appended (when it is not) — when the key is in the index but no list
record matches, the list is unchanged; finally the index is updated under
the requested key and (when truthy) the final-URL key.  An uncaught error
propagates. -/
def mergeStep (fetch : String → FetchOutcome) :
    List Item × IdMap → String → Except FetchErr (List Item × IdMap)
  | (l, m), u =>
    match fetch u with
    | .err e => if isReqExc e then .ok (l, m) else .error e
    | .ok metrics0 =>
      let metrics := { metrics0 with requested_url := some u }
      let keyReq := normalize_url u
      let newList :=
        if (m keyReq).isSome then
          match findIdxFrom (fun it => itemKey it == some keyReq) l 0 with
          | some idx => l.set idx metrics
          | none => l
        else l ++ [metrics]
      .ok (newList, updatedMap m keyReq metrics)

/-- The merge loop over the to-fetch list. -/
def runLoop (fetch : String → FetchOutcome) :
    List Item × IdMap → List String → Except FetchErr (List Item × IdMap)
  | st, [] => .ok st
  | st, u :: rest =>
    match mergeStep fetch st u with
    | .error e => .error e
    | .ok st' => runLoop fetch st' rest

/-- A whole engine run (source lines 176-259): build the index, pick the
resume point, classify the tail, run the merge loop.  Returns the final
persisted list and the number of fetch operations performed (one per
to-fetch URL), or the uncaught error that aborted the run. -/
def run (fetch : String → FetchOutcome) (force noResume : Bool)
    (urls : List String) (prior : List Item) : Except FetchErr (List Item × ℕ) :=
  let m := existing_map prior
  let tf := (tailUrls noResume prior urls).filter (toFetchPred force m)
  match runLoop fetch (prior, m) tf with
  | .error e => .error e
  | .ok (l, _) => .ok (l, tf.length)

/-- The record a successful fetch of `u` contributes, with its
`requested_url` attached (source line 230). -/
def fetchedItem (fetch : String → FetchOutcome) (u : String) : Item :=
  match fetch u with
  | .ok it => { it with requested_url := some u }
  | .err _ => { requested_url := some u, url := none, payload := 0 }

/-- Why reading the checkpoint file can yield no record list: the read
itself failed, or the content did not parse as JSON. -/
inductive LoadErr where
  | readFailed : LoadErr
  | parseFailed : LoadErr

/-- State of `performance_data.json` at startup: absent, or present with
the outcome of reading-and-parsing it (deserialization of a record
sequence is an external capability per the spec's interface section). -/
inductive FileState where
  | absent : FileState
  | present (content : Except LoadErr (List Item)) : FileState

/-- `load_json_file` (source lines 132-140): missing file yields `[]`;
any exception while opening, reading or parsing is caught, a warning is
printed, and `[]` is returned; otherwise the decoded list is returned. -/
def load_json_file : FileState → List Item
  | .absent => []
  | .present (.error _) => []
  | .present (.ok items) => items

def fetchC1 : String → FetchOutcome := fun u =>
  if u = "b.com" then .ok ⟨none, some "http://b.com", 7⟩ else .err .transport

def fetchC2 : String → FetchOutcome := fun u =>
  if u = "c.com" then .ok ⟨none, some "http://a.com", 0⟩ else .err .transport

def fetchC8 : String → FetchOutcome := fun u =>
  if u = "a.com" then .ok ⟨none, some "http://a.com", 1⟩ else .err .transport

def fetchC9 : String → FetchOutcome := fun u =>
  if u = "u1" then .err (.py .attrError) else .ok ⟨none, some "http://u2.com", 2⟩

instance exceptDecEq {E A : Type} [DecidableEq E] [DecidableEq A] :
    DecidableEq (Except E A) := fun x y =>
  match x, y with
  | .error a, .error b =>
    if h : a = b then .isTrue (by rw [h]) else .isFalse (fun hh => h (by injection hh))
  | .ok a, .ok b =>
    if h : a = b then .isTrue (by rw [h]) else .isFalse (fun hh => h (by injection hh))
  | .error _, .ok _ => .isFalse (fun hh => Except.noConfusion hh)
  | .ok _, .error _ => .isFalse (fun hh => Except.noConfusion hh)

def c1WitFetch : String → FetchOutcome := fun _ => .ok ⟨none, some "http://a.com", 3⟩

/-- The keys a record occupies according to the claimed invariant: the
normalized forms of its truthy `requested_url` and `url` fields (the
fields the index-building loop looks at). -/
def occupiedKeys (it : Item) : List String :=
  (match it.requested_url with
   | some v => if v ≠ "" then [normalize_url v] else []
   | none => []) ++
  (match it.url with
   | some v => if v ≠ "" then [normalize_url v] else []
   | none => [])

/-- The claimed invariant: at most one record per normalized identity
key, a record occupying a key through either of its URL fields. -/
def atMostOnePerKey (l : List Item) : Prop :=
  l.Pairwise (fun a b => ∀ k, k ∈ occupiedKeys a → k ∉ occupiedKeys b)

/-- The invariant the code actually preserves: the preferred keys
(`itemKey`, i.e. `requested_url` falling back to `url`) of the records
are pairwise distinct. -/
def preferredKeysDistinct (l : List Item) : Prop :=
  (l.filterMap itemKey).Nodup

instance (l : List Item) : Decidable (preferredKeysDistinct l) := by
  unfold preferredKeysDistinct
  infer_instance

instance (l : List Item) : Decidable (atMostOnePerKey l) := by
  unfold atMostOnePerKey
  exact List.instDecidablePairwise l

/-- The exception one failing attempt raises (defined for attempts whose
evaluation fails). -/
def evalErr (url : String) (a : Attempt) : FetchErr :=
  match attemptEval url a with
  | .error e => e
  | .ok _ => .transport

def validScheme (l : List Char) : Bool :=
  match l with
  | [] => false
  | c :: rest => c.isAlpha && (c :: rest).all schemeChar

def fetchC8W : String → FetchOutcome := fun u =>
  if u = "a.com" then .ok ⟨none, some "http://a.com", 1⟩
  else if u = "b.com" then .ok ⟨none, some "http://b.com", 2⟩
  else .err .transport

theorem findIdxFrom_eq_none {α : Type} (p : α → Bool) (l : List α) (i : ℕ)
    (h : ∀ a ∈ l, p a = false) : findIdxFrom p l i = none := by
  induction l generalizing i with
  | nil => rfl
  | cons a t ih =>
    have ha := h a (List.mem_cons_self a t)
    simp only [findIdxFrom, ha, Bool.false_eq_true, if_false]
    exact ih _ (fun x hx => h x (List.mem_cons_of_mem _ hx))

theorem findIdxFrom_first {α : Type} (p : α → Bool) (l₁ l₂ : List α) (x : α) (i : ℕ)
    (h1 : ∀ a ∈ l₁, p a = false) (hx : p x = true) :
    findIdxFrom p (l₁ ++ x :: l₂) i = some (i + l₁.length) := by
  induction l₁ generalizing i with
  | nil => simp [findIdxFrom, hx]
  | cons a t ih =>
    have ha := h1 a (List.mem_cons_self a t)
    simp only [List.cons_append, findIdxFrom, ha, Bool.false_eq_true, if_false,
      List.append_eq]
    rw [ih (i + 1) (fun y hy => h1 y (List.mem_cons_of_mem _ hy))]
    congr 1
    simp only [List.length_cons]
    omega

theorem findIdxFrom_decomp {α : Type} (p : α → Bool) (l : List α) (j idx : ℕ)
    (h : findIdxFrom p l j = some idx) :
    ∃ l₁ x l₂, l = l₁ ++ x :: l₂ ∧ j + l₁.length = idx ∧ p x = true ∧
      ∀ a ∈ l₁, p a = false := by
  induction l generalizing j with
  | nil => exact absurd h (by simp [findIdxFrom])
  | cons a t ih =>
    by_cases ha : p a = true
    · refine ⟨[], a, t, rfl, ?_, ha, by simp⟩
      simp only [findIdxFrom, ha, if_true, Option.some.injEq] at h
      simpa using h
    · simp only [findIdxFrom, ha, if_false] at h
      obtain ⟨l₁, x, l₂, hdec, hlen, hx, hall⟩ := ih (j + 1) h
      refine ⟨a :: l₁, x, l₂, by simp [hdec], by simp only [List.length_cons]; omega, hx, ?_⟩
      intro y hy
      rcases List.mem_cons.mp hy with hy | hy
      · subst hy; exact eq_false_of_ne_true ha
      · exact hall y hy

theorem set_append_len {α : Type} (l₁ : List α) (x y : α) (l₂ : List α) :
    (l₁ ++ x :: l₂).set l₁.length y = l₁ ++ y :: l₂ := by
  induction l₁ with
  | nil => rfl
  | cons a t ih => simp [List.set, ih]

theorem drop_append_len {α : Type} (l₁ : List α) (x : α) (l₂ : List α) :
    (l₁ ++ x :: l₂).drop (l₁.length + 1) = l₂ := by
  induction l₁ with
  | nil => rfl
  | cons a t ih => simp only [List.cons_append, List.length_cons, List.drop_succ_cons]; exact ih

/-- C10: loading the persisted result set never raises: when the file is
present and its content reads and parses, the decoded record sequence is
returned; when the file is absent, or reading or parsing fails (a
warning only), the empty sequence is returned, so a corrupt checkpoint
degrades the prior result set to empty instead of aborting startup. -/
theorem c10_load_json_file_total :
    load_json_file .absent = [] ∧
    (∀ e, load_json_file (.present (.error e)) = []) ∧
    (∀ items, load_json_file (.present (.ok items)) = items) :=
  ⟨rfl, fun _ => rfl, fun _ => rfl⟩

/-- C5: a fetch whose first attempt fails with an HTTP status in the 4xx
range performs exactly one attempt: the error propagates immediately,
with no sleep and no further attempts. -/
theorem c5_no_retry_on_4xx (oracle : ℕ → Attempt) (url : String)
    (retries : ℕ) (b : ℚ) (status : ℕ)
    (hret : 1 ≤ retries)
    (h1 : attemptEval url (oracle 1) = .error (.http status))
    (h4a : 400 ≤ status) (h4b : status < 500) :
    fetch_pagespeed_metrics oracle url retries b =
      { outcome := some (.error (.http status)), attempts := 1, sleeps := [] } := by
  obtain ⟨k, rfl⟩ : ∃ k, retries = k + 1 := ⟨retries - 1, by omega⟩
  unfold fetch_pagespeed_metrics
  rw [List.range'_succ]
  simp only [fetchGo, h1]
  rw [if_pos ⟨h4a, h4b⟩]

theorem c5_no_retry_on_4xx_witness :
    fetch_pagespeed_metrics (fun _ => .resp 404 (.error ())) "u" 3 1 =
      { outcome := some (.error (.http 404)), attempts := 1, sleeps := [] } :=
  c5_no_retry_on_4xx _ "u" 3 1 404 (by decide) rfl (by decide) (by decide)

theorem runLoop_append (fetch : String → FetchOutcome) (st : List Item × IdMap)
    (l₁ l₂ : List String) :
    runLoop fetch st (l₁ ++ l₂) =
      match runLoop fetch st l₁ with
      | .error e => .error e
      | .ok st' => runLoop fetch st' l₂ := by
  induction l₁ generalizing st with
  | nil => simp [runLoop]
  | cons a t ih =>
    simp only [List.cons_append, runLoop]
    cases mergeStep fetch st a with
    | error e => rfl
    | ok st' => exact ih st'

/-- C9 (amended): a terminal fetch failure raised as a
`requests.exceptions.RequestException` (HTTP-status, transport, or
body-decode failure) is caught by the per-URL handler: the state is left
unchanged for that URL and the merge loop continues with the next URL,
exactly as if the URL were not in the work list.  (An extraction error on
a malformed report body is not of this class and aborts the run, so the
isolation does not extend to it.) -/
theorem c9_failure_isolation (fetch : String → FetchOutcome) (st : List Item × IdMap)
    (l₁ l₂ : List String) (u : String) (e : FetchErr)
    (hf : fetch u = .err e) (he : isReqExc e = true) :
    runLoop fetch st (l₁ ++ u :: l₂) = runLoop fetch st (l₁ ++ l₂) := by
  induction l₁ generalizing st with
  | nil =>
    simp only [List.nil_append, runLoop, mergeStep, hf, he, if_true]
  | cons a t ih =>
    simp only [List.cons_append, runLoop]
    cases mergeStep fetch st a with
    | error e' => rfl
    | ok st' => exact ih st'

theorem c9_failure_isolation_witness :
    runLoop fetchC8 ([], emptyMap) (["a.com"] ++ "b.com" :: []) =
      runLoop fetchC8 ([], emptyMap) (["a.com"] ++ []) :=
  c9_failure_isolation fetchC8 ([], emptyMap) ["a.com"] [] "b.com" .transport rfl rfl

theorem c9_counterexample :
    (fetch_pagespeed_metrics
        (fun _ => .resp 200 (.ok (.obj [("lighthouseResult", .str "x")]))) "u1" 3 1).outcome =
      some (.error (.py .attrError)) ∧
    (fetch_pagespeed_metrics
        (fun _ => .resp 200 (.ok (.obj [("lighthouseResult", .str "x")]))) "u1" 3 1).attempts = 1 ∧
    run fetchC9 false false ["u1", "u2"] [] = .error (.py .attrError) :=
  ⟨rfl, rfl, rfl⟩

/-- C3: with resume enabled and a non-empty prior result set whose last
record has identity key `k`: when the URL list splits as
`pre ++ x :: post` with `x` the first entry normalizing to `k`, the run
starts right after `x` with no warning and classifies exactly `post`
(entries of `pre` are never revisited, whatever the index holds); when no
entry normalizes to `k`, the run starts at position 0 with the non-fatal
warning. -/
theorem c3_resume_point (existing : List Item) (lastIt : Item) (k : String)
    (urls pre post : List String) (x : String)
    (hlast : existing.getLast? = some lastIt)
    (hkey : itemKey lastIt = some k) :
    ((urls = pre ++ x :: post ∧ normalize_url x = k ∧ ∀ u ∈ pre, normalize_url u ≠ k) →
      resumeStart false existing urls = (pre.length + 1, false) ∧
      tailUrls false existing urls = post) ∧
    ((∀ u ∈ urls, normalize_url u ≠ k) →
      resumeStart false existing urls = (0, true) ∧
      tailUrls false existing urls = urls) := by
  constructor
  · rintro ⟨hurls, hx, hpre⟩
    subst hurls
    have hfind : findIdxFrom (fun u => some (normalize_url u) == itemKey lastIt)
        (pre ++ x :: post) 0 = some pre.length := by
      have := findIdxFrom_first (fun u => some (normalize_url u) == itemKey lastIt)
        pre post x 0 ?_ ?_
      · simpa using this
      · intro a ha
        simp only [hkey, beq_eq_false_iff_ne, ne_eq, Option.some.injEq]
        exact hpre a ha
      · simp [hkey, hx]
    have hrs : resumeStart false existing (pre ++ x :: post) = (pre.length + 1, false) := by
      simp [resumeStart, hlast, hfind]
    refine ⟨hrs, ?_⟩
    rw [tailUrls, hrs]
    exact drop_append_len pre x post
  · intro hnone
    have hfind : findIdxFrom (fun u => some (normalize_url u) == itemKey lastIt) urls 0 =
        none := by
      apply findIdxFrom_eq_none
      intro a ha
      simp only [hkey, beq_eq_false_iff_ne, ne_eq, Option.some.injEq]
      exact hnone a ha
    have hrs : resumeStart false existing urls = (0, true) := by
      simp [resumeStart, hlast, hfind]
    exact ⟨hrs, by rw [tailUrls, hrs]; rfl⟩

theorem c3_resume_point_witness :
    (resumeStart false [⟨some "x.com", none, 0⟩]
        ["a.com", "b.com", "x.com", "c.com", "d.com"] = (3, false) ∧
      tailUrls false [⟨some "x.com", none, 0⟩]
        ["a.com", "b.com", "x.com", "c.com", "d.com"] = ["c.com", "d.com"]) ∧
    (resumeStart false [⟨some "x.com", none, 0⟩] ["q.com"] = (0, true) ∧
      tailUrls false [⟨some "x.com", none, 0⟩] ["q.com"] = ["q.com"]) := by
  constructor
  · exact (c3_resume_point [⟨some "x.com", none, 0⟩] ⟨some "x.com", none, 0⟩ "x.com"
      ["a.com", "b.com", "x.com", "c.com", "d.com"] ["a.com", "b.com"]
      ["c.com", "d.com"] "x.com" rfl rfl).1 ⟨rfl, by decide, by decide⟩
  · exact (c3_resume_point [⟨some "x.com", none, 0⟩] ⟨some "x.com", none, 0⟩ "x.com"
      ["q.com"] [] [] "x.com" rfl rfl).2 (by decide)

theorem c1_counterexample :
    run fetchC1 true false ["b.com"] [⟨some "http://a.com", some "http://b.com", 0⟩] =
      .ok ([⟨some "http://a.com", some "http://b.com", 0⟩], 1) ∧
    (⟨some "b.com", some "http://b.com", 7⟩ : Item) ∉
      [(⟨some "http://a.com", some "http://b.com", 0⟩ : Item)] ∧
    run fetchC1 true false ["b.com"] [⟨some "http://a.com", some "http://b.com", 0⟩] ≠
      .ok ([⟨some "b.com", some "http://b.com", 7⟩], 1) :=
  ⟨rfl, by decide, by decide⟩

/-- C1 (amended): for a successfully fetched URL `u` with new key
`k = normalize_url u`, the merge step appends the new record when `k` is
absent from the index; when `k` is in the index, it substitutes the new
record, in place and with every other position unchanged, for the first
record whose preferred key (`requested_url` if truthy, else `url`)
normalizes to `k` — so a force-refetched URL whose own record sits at
position `j` keeps position `j`; but when `k` is in the index only
through some record's non-preferred final URL so that no record's
preferred key matches, the new record is neither placed nor appended (it
is dropped from the persisted sequence). -/
theorem c1_merge_step_cases (fetch : String → FetchOutcome) (L : List Item) (M : IdMap)
    (u : String) (it : Item) (hfetch : fetch u = .ok it) :
    (M (normalize_url u) = none →
      ∃ M2, mergeStep fetch (L, M) u =
        .ok (L ++ [{ it with requested_url := some u }], M2)) ∧
    (∀ L₁ r L₂, (M (normalize_url u)).isSome = true →
      L = L₁ ++ r :: L₂ → itemKey r = some (normalize_url u) →
      (∀ r' ∈ L₁, itemKey r' ≠ some (normalize_url u)) →
      ∃ M2, mergeStep fetch (L, M) u =
        .ok (L₁ ++ { it with requested_url := some u } :: L₂, M2)) ∧
    ((M (normalize_url u)).isSome = true →
      (∀ r ∈ L, itemKey r ≠ some (normalize_url u)) →
      ∃ M2, mergeStep fetch (L, M) u = .ok (L, M2)) := by
  refine ⟨?_, ?_, ?_⟩
  · intro h
    exact ⟨updatedMap M (normalize_url u) { it with requested_url := some u },
      by simp [mergeStep, hfetch, h]⟩
  · intro L₁ r L₂ hsome hdec hr hfirst
    subst hdec
    have hfind : findIdxFrom (fun it' => itemKey it' == some (normalize_url u))
        (L₁ ++ r :: L₂) 0 = some L₁.length := by
      have := findIdxFrom_first (fun it' => itemKey it' == some (normalize_url u))
        L₁ L₂ r 0 ?_ ?_
      · simpa using this
      · intro a ha
        simp only [beq_eq_false_iff_ne, ne_eq]
        exact hfirst a ha
      · simp [hr]
    refine ⟨updatedMap M (normalize_url u) { it with requested_url := some u }, ?_⟩
    simp only [mergeStep, hfetch, hsome, if_true, hfind]
    rw [set_append_len]
  · intro hsome hnone
    have hfind : findIdxFrom (fun it' => itemKey it' == some (normalize_url u)) L 0 =
        none := by
      apply findIdxFrom_eq_none
      intro a ha
      simp only [beq_eq_false_iff_ne, ne_eq]
      exact hnone a ha
    exact ⟨updatedMap M (normalize_url u) { it with requested_url := some u },
      by simp only [mergeStep, hfetch, hsome, if_true, hfind]⟩

theorem c1_merge_step_cases_witness :
    ∃ M2, mergeStep c1WitFetch
        ([⟨some "a.com", none, 0⟩], existing_map [⟨some "a.com", none, 0⟩]) "a.com" =
      .ok ([⟨some "a.com", some "http://a.com", 3⟩], M2) :=
  (c1_merge_step_cases c1WitFetch [⟨some "a.com", none, 0⟩]
      (existing_map [⟨some "a.com", none, 0⟩]) "a.com" ⟨none, some "http://a.com", 3⟩
      rfl).2.1 [] ⟨some "a.com", none, 0⟩ [] (by decide) rfl (by decide) (by simp)

theorem c2_counterexample :
    atMostOnePerKey [⟨some "http://a.com", some "http://a.com", 0⟩] ∧
    run fetchC2 false false ["c.com"] [⟨some "http://a.com", some "http://a.com", 0⟩] =
      .ok ([⟨some "http://a.com", some "http://a.com", 0⟩,
            ⟨some "c.com", some "http://a.com", 0⟩], 1) ∧
    ¬ atMostOnePerKey [⟨some "http://a.com", some "http://a.com", 0⟩,
        ⟨some "c.com", some "http://a.com", 0⟩] := by
  refine ⟨?_, rfl, ?_⟩
  · simp [atMostOnePerKey]
  · intro h
    rcases h with _ | ⟨h1, _⟩
    exact (h1 ⟨some "c.com", some "http://a.com", 0⟩ (List.mem_singleton.mpr rfl)
      "a.com" (by decide)) (by decide)

theorem setKey_isSome (m : IdMap) (k : String) (it : Item) (k' : String)
    (h : (m k').isSome = true) : (setKey m k it k').isSome = true := by
  by_cases hk : k' = k <;> simp [setKey, hk, h]

theorem setKey_self_isSome (m : IdMap) (k : String) (it : Item) :
    (setKey m k it k).isSome = true := by
  simp [setKey]

theorem addItem_isSome (m : IdMap) (it : Item) (k : String)
    (h : (m k).isSome = true) : (addItem m it k).isSome = true := by
  unfold addItem
  cases hr : it.requested_url with
  | none =>
    cases hu : it.url with
    | none => exact h
    | some v =>
      by_cases hv : v = "" <;> simp [hv, setKey_isSome, h]
  | some v =>
    cases hu : it.url with
    | none =>
      by_cases hv : v = "" <;> simp [hv, setKey_isSome, h]
    | some w =>
      by_cases hv : v = "" <;> by_cases hw : w = "" <;>
        simp [hv, hw, setKey_isSome, h]

theorem foldl_addItem_isSome (l : List Item) (m : IdMap) (k : String)
    (h : (m k).isSome = true) : ((l.foldl addItem m) k).isSome = true := by
  induction l generalizing m with
  | nil => exact h
  | cons a t ih => exact ih _ (addItem_isSome m a k h)

theorem updatedMap_isSome (m : IdMap) (kq : String) (it : Item) (k : String)
    (h : (m k).isSome = true) : (updatedMap m kq it k).isSome = true := by
  unfold updatedMap
  cases hu : it.url with
  | none => exact setKey_isSome m kq it k h
  | some v =>
    by_cases hv : v = "" <;> simp [hv, setKey_isSome, h]

theorem updatedMap_self_isSome (m : IdMap) (kq : String) (it : Item) :
    (updatedMap m kq it kq).isSome = true := by
  unfold updatedMap
  cases hu : it.url with
  | none => exact setKey_self_isSome m kq it
  | some v =>
    by_cases hv : v = "" <;> simp [hv, setKey_isSome, setKey_self_isSome]

theorem addItem_covers (m : IdMap) (it : Item) (k : String)
    (hk : itemKey it = some k) (hne : pyOr it.requested_url it.url ≠ some "") :
    (addItem m it k).isSome = true := by
  unfold itemKey at hk
  unfold addItem
  cases hr : it.requested_url with
  | some v =>
    by_cases hv : v = ""
    · subst hv
      rw [hr] at hk hne
      simp [pyOr, strTruthy] at hk hne
      cases hu : it.url with
      | none => rw [hu] at hk; simp [pyOr, strTruthy] at hk
      | some w =>
        rw [hu] at hk hne
        by_cases hw : w = ""
        · subst hw; simp [pyOr, strTruthy] at hk hne
        · simp [pyOr, strTruthy, hw] at hk
          simp [hw, if_neg]
          subst hk
          exact setKey_self_isSome _ _ _
    · rw [hr] at hk
      simp [pyOr, strTruthy, hv] at hk
      subst hk
      cases hu : it.url with
      | none => simp [hv]; exact setKey_self_isSome _ _ _
      | some w =>
        by_cases hw : w = "" <;>
          simp [hv, hw, setKey_isSome, setKey_self_isSome]
  | none =>
    rw [hr] at hk hne
    simp [pyOr, strTruthy] at hk hne
    cases hu : it.url with
    | none => rw [hu] at hk; simp at hk
    | some w =>
      rw [hu] at hk hne
      by_cases hw : w = ""
      · subst hw; simp at hk hne
      · simp [hw] at hk
        subst hk
        simp [hw]
        exact setKey_self_isSome _ _ _

theorem foldl_addItem_covers (l : List Item) (m : IdMap) (it_ : Item)
    (hmem : it_ ∈ l) (hne : pyOr it_.requested_url it_.url ≠ some "")
    (k : String) (hk : itemKey it_ = some k) :
    ((l.foldl addItem m) k).isSome = true := by
  induction l generalizing m with
  | nil => cases hmem
  | cons a t ih =>
    rcases List.mem_cons.mp hmem with rfl | hmem'
    · exact foldl_addItem_isSome t (addItem m it_) k (addItem_covers m it_ k hk hne)
    · exact ih (addItem m a) hmem'

theorem existing_map_covers (prior : List Item)
    (hpr : ∀ it_ ∈ prior, pyOr it_.requested_url it_.url ≠ some "")
    (it_ : Item) (hmem : it_ ∈ prior) (k : String) (hk : itemKey it_ = some k) :
    ((existing_map prior) k).isSome = true :=
  foldl_addItem_covers prior emptyMap it_ hmem (hpr it_ hmem) k hk

theorem itemKey_attach (it : Item) (u : String) (hu : u ≠ "") :
    itemKey { it with requested_url := some u } = some (normalize_url u) := by
  simp [itemKey, pyOr, strTruthy, hu]

theorem ok_pair_inj {A B E : Type} {a c : A} {b d : B}
    (h : (Except.ok (a, b) : Except E (A × B)) = .ok (c, d)) : a = c ∧ b = d := by
  have h2 := Except.ok.inj h
  exact ⟨congrArg Prod.fst h2, congrArg Prod.snd h2⟩

theorem mergeStep_preserves (fetch : String → FetchOutcome) (L : List Item) (M : IdMap)
    (u : String) (hu : u ≠ "")
    (hd : preferredKeysDistinct L)
    (hc : ∀ it_ ∈ L, ∀ k, itemKey it_ = some k → (M k).isSome = true)
    (S : List Item) (M' : IdMap)
    (hstep : mergeStep fetch (L, M) u = .ok (S, M')) :
    preferredKeysDistinct S ∧
    (∀ it_ ∈ S, ∀ k, itemKey it_ = some k → (M' k).isSome = true) := by
  cases hf : fetch u with
  | err e =>
    cases he : isReqExc e with
    | true =>
      simp only [mergeStep, hf, he, if_true] at hstep
      obtain ⟨rfl, rfl⟩ := ok_pair_inj hstep
      exact ⟨hd, hc⟩
    | false =>
      simp only [mergeStep, hf, he, Bool.false_eq_true, if_false] at hstep
      cases hstep
  | ok it =>
    have hm' : itemKey { it with requested_url := some u } = some (normalize_url u) :=
      itemKey_attach it u hu
    cases hsome : (M (normalize_url u)).isSome with
    | true =>
      cases hfind : findIdxFrom (fun it' => itemKey it' == some (normalize_url u)) L 0 with
      | none =>
        simp only [mergeStep, hf, hsome, if_true, hfind] at hstep
        obtain ⟨rfl, rfl⟩ := ok_pair_inj hstep
        refine ⟨hd, fun r hr k hk => updatedMap_isSome M _ _ k (hc r hr k hk)⟩
      | some idx =>
        obtain ⟨L₁, r, L₂, hdec, hlen, hpr, hfirst⟩ :=
          findIdxFrom_decomp _ L 0 idx hfind
        have hkr : itemKey r = some (normalize_url u) := by rwa [beq_iff_eq] at hpr
        simp only [mergeStep, hf, hsome, if_true, hfind] at hstep
        rw [hdec, show idx = L₁.length by omega, set_append_len] at hstep
        obtain ⟨rfl, rfl⟩ := ok_pair_inj hstep
        subst hdec
        constructor
        · unfold preferredKeysDistinct at hd ⊢
          rw [List.filterMap_append, List.filterMap_cons, hkr] at hd
          rw [List.filterMap_append, List.filterMap_cons, hm']
          exact hd
        · intro r' hr' k hk
          rcases List.mem_append.mp hr' with h1 | h2
          · exact updatedMap_isSome M _ _ k
              (hc r' (List.mem_append.mpr (Or.inl h1)) k hk)
          · rcases List.mem_cons.mp h2 with rfl | h3
            · rw [hm'] at hk
              cases hk
              exact updatedMap_self_isSome M _ _
            · exact updatedMap_isSome M _ _ k
                (hc r' (List.mem_append.mpr (Or.inr (List.mem_cons.mpr (Or.inr h3)))) k hk)
    | false =>
      simp only [mergeStep, hf, hsome, Bool.false_eq_true, if_false] at hstep
      obtain ⟨rfl, rfl⟩ := ok_pair_inj hstep
      constructor
      · unfold preferredKeysDistinct at hd ⊢
        rw [List.filterMap_append, List.filterMap_cons, hm']
        simp only [List.filterMap_nil]
        rw [List.nodup_append]
        refine ⟨hd, List.nodup_singleton _, ?_⟩
        intro k hkL hkR
        simp only [List.mem_singleton] at hkR
        subst hkR
        obtain ⟨r, hrmem, hrk⟩ := List.mem_filterMap.mp hkL
        rw [hc r hrmem _ hrk] at hsome
        cases hsome
      · intro r' hr' k hk
        rcases List.mem_append.mp hr' with h1 | h2
        · exact updatedMap_isSome M _ _ k (hc r' h1 k hk)
        · rcases List.mem_singleton.mp h2 with rfl
          rw [hm'] at hk
          cases hk
          exact updatedMap_self_isSome M _ _

theorem runLoop_preserves (fetch : String → FetchOutcome) (urls : List String) :
    ∀ (L : List Item) (M : IdMap) (S : List Item) (M' : IdMap),
    (∀ u ∈ urls, u ≠ "") →
    preferredKeysDistinct L →
    (∀ it_ ∈ L, ∀ k, itemKey it_ = some k → (M k).isSome = true) →
    runLoop fetch (L, M) urls = .ok (S, M') →
    preferredKeysDistinct S ∧
    (∀ it_ ∈ S, ∀ k, itemKey it_ = some k → (M' k).isSome = true) := by
  induction urls with
  | nil =>
    intro L M S M' _ hd hc hrun
    obtain ⟨rfl, rfl⟩ := ok_pair_inj (show (Except.ok (L, M) :
      Except FetchErr (List Item × IdMap)) = .ok (S, M') from hrun)
    exact ⟨hd, hc⟩
  | cons u rest ih =>
    intro L M S M' hurls hd hc hrun
    rw [runLoop] at hrun
    cases hstep : mergeStep fetch (L, M) u with
    | error e => rw [hstep] at hrun; cases hrun
    | ok st' =>
      rw [hstep] at hrun
      obtain ⟨hd', hc'⟩ := mergeStep_preserves fetch L M u
        (hurls u (List.mem_cons_self u rest)) hd hc st'.1 st'.2 (by rw [hstep])
      exact ih st'.1 st'.2 S M'
        (fun v hv => hurls v (List.mem_cons_of_mem _ hv)) hd' hc' hrun

/-- C2 (amended): the merge loop preserves uniqueness of the records'
preferred identity keys (`requested_url` falling back to `url`): for any
prior set with distinct, indexable preferred keys and any fetch outcomes,
the resulting persisted sequence has no two records sharing a preferred
key.  The claimed stronger invariant — at most one record per key
occupied through either URL field — is not preserved: a fetched record
whose final URL collides with an existing record's key is still appended,
because only the requested-URL key decides replace-vs-append. -/
theorem c2_key_uniqueness (fetch : String → FetchOutcome) (prior : List Item)
    (urls : List String) (S : List Item) (M' : IdMap)
    (hurls : ∀ u ∈ urls, u ≠ "")
    (hpr : ∀ it_ ∈ prior, pyOr it_.requested_url it_.url ≠ some "")
    (hprior : preferredKeysDistinct prior)
    (hrun : runLoop fetch (prior, existing_map prior) urls = .ok (S, M')) :
    preferredKeysDistinct S :=
  (runLoop_preserves fetch urls prior (existing_map prior) S M' hurls hprior
    (fun it_ hmem k hk => existing_map_covers prior hpr it_ hmem k hk) hrun).1

theorem c2_key_uniqueness_witness :
    preferredKeysDistinct [⟨some "http://a.com", some "http://a.com", 0⟩,
      ⟨some "c.com", some "http://a.com", 0⟩] :=
  c2_key_uniqueness fetchC2 [⟨some "http://a.com", some "http://a.com", 0⟩] ["c.com"]
    [⟨some "http://a.com", some "http://a.com", 0⟩, ⟨some "c.com", some "http://a.com", 0⟩]
    (updatedMap (existing_map [⟨some "http://a.com", some "http://a.com", 0⟩])
      (normalize_url "c.com") ⟨some "c.com", some "http://a.com", 0⟩)
    (by decide) (by decide) (by decide) rfl

theorem fetchGo_stop (oracle : ℕ → Attempt) (url : String) (b : ℚ) (m : ℕ)
    (slept : List ℚ) (e : FetchErr)
    (he : attemptEval url (oracle m) = .error e) (hre : isRetriable e = true) :
    fetchGo oracle url b [m] slept =
      { outcome := some (.error e), attempts := m, sleeps := slept } := by
  cases e with
  | http s =>
    by_cases hc : (400 ≤ s ∧ s < 500)
    · simp only [fetchGo, he, if_pos hc]
    · simp only [fetchGo, he, if_neg hc]
  | transport => simp only [fetchGo, he]
  | decode => simp only [fetchGo, he]
  | py pe => simp [isRetriable] at hre

theorem fetchGo_continue (oracle : ℕ → Attempt) (url : String) (b : ℚ) (m n : ℕ)
    (rest' : List ℕ) (slept : List ℚ) (e : FetchErr)
    (he : attemptEval url (oracle m) = .error e) (hre : isRetriable e = true) :
    fetchGo oracle url b (m :: n :: rest') slept =
      fetchGo oracle url b (n :: rest') (slept ++ [b * 2 ^ (m - 1)]) := by
  cases e with
  | http s =>
    have hc : ¬(400 ≤ s ∧ s < 500) := by
      intro hc
      simp only [isRetriable, if_pos hc] at hre
      cases hre
    simp only [fetchGo, he, if_neg hc]
  | transport => simp only [fetchGo, he]
  | decode => simp only [fetchGo, he]
  | py pe => simp [isRetriable] at hre

theorem fetchGo_all_retriable (oracle : ℕ → Attempt) (url : String) (b : ℚ) :
    ∀ (k m : ℕ) (slept : List ℚ), 1 ≤ m → 1 ≤ k →
    (∀ j, m ≤ j → j < m + k →
      ∃ e, attemptEval url (oracle j) = .error e ∧ isRetriable e = true) →
    fetchGo oracle url b (List.range' m k) slept =
      { outcome := some (.error (evalErr url (oracle (m + k - 1)))),
        attempts := m + k - 1,
        sleeps := slept ++ (List.range (k - 1)).map (fun i => b * 2 ^ (m - 1 + i)) } := by
  intro k
  induction k with
  | zero => intro m slept hm hk hall; exact absurd hk (by omega)
  | succ k ih =>
    intro m slept hm hk hall
    obtain ⟨e, he, hre⟩ := hall m le_rfl (by omega)
    rw [List.range'_succ]
    cases k with
    | zero =>
      have h0 : List.range' (m + 1) 0 = [] := rfl
      rw [h0, fetchGo_stop oracle url b m slept e he hre]
      have hev : evalErr url (oracle (m + 1 - 1)) = e := by
        simp only [Nat.add_sub_cancel, evalErr, he]
      rw [hev]
      simp
    | succ k' =>
      rw [List.range'_succ]
      rw [fetchGo_continue oracle url b m (m + 1) (List.range' (m + 1 + 1) k') slept e he hre]
      rw [← List.range'_succ]
      rw [ih (m + 1) (slept ++ [b * 2 ^ (m - 1)]) (by omega) (by omega)
        (fun j hj1 hj2 => hall j (by omega) (by omega))]
      have hat : m + 1 + (k' + 1) - 1 = m + (k' + 1 + 1) - 1 := by omega
      have hK1 : k' + 1 - 1 = k' := by omega
      have hK2 : k' + 1 + 1 - 1 = k' + 1 := by omega
      rw [hat, hK1, hK2]
      have hsl : (slept ++ [b * 2 ^ (m - 1)]) ++
          (List.range k').map (fun i => b * 2 ^ (m + 1 - 1 + i)) =
          slept ++ (List.range (k' + 1)).map (fun i => b * 2 ^ (m - 1 + i)) := by
        simp only [List.append_assoc, List.singleton_append, List.range_succ_eq_map,
          List.map_cons, List.map_map, Nat.add_sub_cancel, Nat.add_zero, Function.comp]
        congr 1
        congr 1
        apply List.map_congr_left
        intro i _
        have hmi : m + i = m - 1 + (i + 1) := by omega
        rw [hmi]
        simp [Function.comp]
      rw [hsl]

/-- C4: a fetch whose every attempt fails with a retriable error (an HTTP
status that raises outside the 4xx range — in practice the 5xx range —, a
transport failure, or a body-decode failure) performs exactly `retries`
attempts (source default 3), sleeping `backoff_factor * 2 ^ (n - 1)`
between attempt `n` and attempt `n + 1` (so `retries - 1` sleeps of
1, 2, 4, ... time units at the default factor 1, none after the final
attempt), and propagates the error of the last attempt. -/
theorem c4_retry_bound (oracle : ℕ → Attempt) (url : String) (retries : ℕ) (b : ℚ)
    (hret : 1 ≤ retries)
    (hall : ∀ j, 1 ≤ j → j ≤ retries →
      ∃ e, attemptEval url (oracle j) = .error e ∧ isRetriable e = true) :
    fetch_pagespeed_metrics oracle url retries b =
      { outcome := some (.error (evalErr url (oracle retries))),
        attempts := retries,
        sleeps := (List.range (retries - 1)).map (fun i => b * 2 ^ i) } := by
  unfold fetch_pagespeed_metrics
  rw [fetchGo_all_retriable oracle url b retries 1 [] le_rfl hret
    (fun j hj1 hj2 => hall j hj1 (by omega))]
  have h1 : 1 + retries - 1 = retries := by omega
  rw [h1]
  simp

theorem c4_retry_bound_witness :
    fetch_pagespeed_metrics (fun _ => .resp 503 (.error ())) "u" 3 1 =
      { outcome := some (.error (evalErr "u" (.resp 503 (.error ())))),
        attempts := 3,
        sleeps := (List.range 2).map (fun i => (1 : ℚ) * 2 ^ i) } :=
  c4_retry_bound (fun _ => .resp 503 (.error ())) "u" 3 1 (by decide)
    (fun j hj1 hj2 => ⟨.http 503, rfl, rfl⟩)

/-- C7 (amended): for a report whose `audits` subtree is missing — the
report object lacks `lighthouseResult`, or its `lighthouseResult` object
lacks `audits` — and whose `timing` subtree is likewise missing, `extract`
returns without raising a record whose metric fields are all `null`
except the request count, which is `0` (the `len(... or [])` fallback
counts an empty list).  The claimed "every metric field is null" is wrong
for the request count, and on non-object nodes (e.g. a string
`lighthouseResult`) the extractor does raise. -/
theorem c7_extract_missing_audits (kvs lrkvs : List (String × Json)) (u : String)
    (hcase : jlookup kvs "lighthouseResult" = none ∨
      (jlookup kvs "lighthouseResult" = some (.obj lrkvs) ∧
       jlookup lrkvs "audits" = none ∧ jlookup lrkvs "timing" = none)) :
    ∃ urlv, extract (.obj kvs) u = .ok
      { url := urlv, TTFB_ms := .null, FCP_ms := .null, LCP_ms := .null,
        SpeedIndex_ms := .null, TBT_ms := .null, TTI_ms := .null,
        noOfRequests := .num 0, pageSize_kb := .null,
        javascriptExecution_ms := .null, loadTime_ms := .null } := by
  rcases hcase with h | ⟨h, ha, ht⟩
  · refine ⟨.str u, ?_⟩
    simp [extract, pyGetD, h, numAudit, safe_list_count, pageSizeKb, jlookup,
      pyTruthy, Except.bind, Bind.bind, Pure.pure, Except.pure]
  · refine ⟨if pyTruthy ((jlookup lrkvs "finalUrl").getD .null) then
      (jlookup lrkvs "finalUrl").getD .null else .str u, ?_⟩
    simp [extract, pyGetD, h, ha, ht, numAudit, safe_list_count, pageSizeKb, jlookup,
      pyTruthy, Except.bind, Bind.bind, Pure.pure, Except.pure]

theorem c7_extract_missing_audits_witness :
    ∃ urlv, extract (.obj []) "w" = .ok
      { url := urlv, TTFB_ms := .null, FCP_ms := .null, LCP_ms := .null,
        SpeedIndex_ms := .null, TBT_ms := .null, TTI_ms := .null,
        noOfRequests := .num 0, pageSize_kb := .null,
        javascriptExecution_ms := .null, loadTime_ms := .null } :=
  c7_extract_missing_audits [] [] "w" (Or.inl rfl)

theorem c7_counterexample :
    extract (.obj []) "u" =
      .ok { url := .str "u", TTFB_ms := .null, FCP_ms := .null, LCP_ms := .null,
            SpeedIndex_ms := .null, TBT_ms := .null, TTI_ms := .null,
            noOfRequests := .num 0, pageSize_kb := .null,
            javascriptExecution_ms := .null, loadTime_ms := .null } ∧
    Json.num 0 ≠ Json.null ∧
    extract (.obj [("lighthouseResult", .str "x")]) "u" = .error .attrError :=
  ⟨rfl, fun h => Json.noConfusion h, rfl⟩

theorem hasSchemeSep_append (a b : List Char) :
    hasSchemeSep (a ++ ':' :: '/' :: '/' :: b) = true := by
  induction a with
  | nil => rfl
  | cons c t ih => simp [hasSchemeSep, ih]

theorem splitAtChar_first (c : Char) (a b : List Char) (ha : c ∉ a) :
    splitAtChar c (a ++ c :: b) = some (a, b) := by
  induction a with
  | nil => simp [splitAtChar]
  | cons d t ih =>
    have hd : d ≠ c := fun h => ha (h ▸ List.mem_cons_self d t)
    simp only [List.cons_append, splitAtChar, if_neg hd, List.append_eq,
      ih (fun h => ha (List.mem_cons_of_mem _ h))]

theorem takeNetloc_pre (a : List Char) (y : Char) (t : List Char)
    (ha : ∀ x ∈ a, isNetlocStop x = false) (hy : isNetlocStop y = true) :
    takeNetloc (a ++ y :: t) = (a, y :: t) := by
  induction a with
  | nil => simp [takeNetloc, hy]
  | cons d s ih =>
    have hd := ha d (List.mem_cons_self d s)
    simp only [List.cons_append, takeNetloc, hd, Bool.false_eq_true, if_false,
      List.append_eq, ih (fun x hx => ha x (List.mem_cons_of_mem _ hx))]

theorem splitScheme_valid (sch rest : List Char) (hv : validScheme sch = true) :
    splitScheme (sch ++ ':' :: rest) = rest := by
  cases sch with
  | nil => cases hv
  | cons c t =>
    simp only [validScheme, Bool.and_eq_true, List.all_eq_true] at hv
    obtain ⟨hc, hall⟩ := hv
    have hno : ':' ∉ c :: t := fun hmem => absurd (hall ':' hmem) (by decide)
    unfold splitScheme
    have hsplit : splitAtChar ':' (c :: t ++ ':' :: rest) = some (c :: t, rest) :=
      splitAtChar_first ':' (c :: t) rest hno
    have hcond : (c.isAlpha && (c :: t).all schemeChar) = true := by
      rw [Bool.and_eq_true, List.all_eq_true]
      exact ⟨hc, hall⟩
    simp only [hsplit, hcond, if_true]

theorem splitAtChar_none (c : Char) (l : List Char) (h : c ∉ l) :
    splitAtChar c l = none := by
  induction l with
  | nil => rfl
  | cons d t ih =>
    have hd : d ≠ c := fun hh => h (hh ▸ List.mem_cons_self d t)
    simp only [splitAtChar, if_neg hd, ih (fun hh => h (List.mem_cons_of_mem _ hh))]

theorem splitNetloc_pre (h : List Char) (y : Char) (t : List Char)
    (hstop : ∀ x ∈ h, isNetlocStop x = false)
    (hy : isNetlocStop y = true)
    (hbr1 : '[' ∉ h) (hbr2 : ']' ∉ h) :
    splitNetloc ('/' :: '/' :: (h ++ y :: t)) = .ok (h, y :: t) := by
  have hc1 : h.contains '[' = false := by
    simp [List.contains, List.elem_eq_mem, hbr1]
  have hc2 : h.contains ']' = false := by
    simp [List.contains, List.elem_eq_mem, hbr2]
  simp only [splitNetloc, takeNetloc_pre h y t hstop hy, hc1, hc2,
    Bool.false_and, Bool.and_false, Bool.false_or, Bool.or_false,
    Bool.false_eq_true, if_false]

theorem dropFrag_pre (a b : List Char) (ha : '#' ∉ a) :
    dropFrag (a ++ '#' :: b) = a := by
  simp only [dropFrag, splitAtChar_first '#' a b ha]

theorem dropQuery_pre (a b : List Char) (ha : '?' ∉ a) :
    dropQuery (a ++ '?' :: b) = a := by
  simp only [dropQuery, splitAtChar_first '?' a b ha]

theorem dropParams_no (p : List Char) (hp : ';' ∉ p) : dropParams p = p := by
  have hc : p.contains ';' = false := by
    simp [List.contains, List.elem_eq_mem, hp]
  simp only [dropParams, hc, Bool.false_eq_true, if_false]

theorem schemeChar_not_unsafe (c : Char) (h : schemeChar c = true) :
    unsafeUrlChar c = false := by
  cases hu : unsafeUrlChar c with
  | false => rfl
  | true =>
    exfalso
    simp only [unsafeUrlChar, Bool.or_eq_true, decide_eq_true_eq] at hu
    rcases hu with (rfl | rfl) | rfl <;> exact absurd h (by decide)

theorem validScheme_all (l : List Char) (h : validScheme l = true) :
    ∀ x ∈ l, schemeChar x = true := by
  cases l with
  | nil => cases h
  | cons c t =>
    simp only [validScheme, Bool.and_eq_true, List.all_eq_true] at h
    exact h.2

theorem stripUnsafe_id (l : List Char) (h : ∀ x ∈ l, unsafeUrlChar x = false) :
    stripUnsafe l = l := by
  unfold stripUnsafe
  rw [List.filter_eq_self]
  intro a ha
  simp [h a ha]

theorem urlparseHostPath_shaped (h p q f : List Char) (sch : List Char)
    (hsch : validScheme sch = true)
    (hh : ∀ x ∈ h, isNetlocStop x = false ∧ x ≠ '[' ∧ x ≠ ']')
    (hp : p = [] ∨ ∃ t, p = '/' :: t)
    (hp2 : ∀ x ∈ p, x ≠ '?' ∧ x ≠ '#' ∧ x ≠ ';')
    (hq : ∀ x ∈ q, x ≠ '#')
    (hhc : ∀ x ∈ h, unsafeUrlChar x = false)
    (hpc : ∀ x ∈ p, unsafeUrlChar x = false)
    (hqc : ∀ x ∈ q, unsafeUrlChar x = false)
    (hfc : ∀ x ∈ f, unsafeUrlChar x = false) :
    urlparseHostPath (sch ++ ':' :: '/' :: '/' :: (h ++ (p ++ '?' :: (q ++ '#' :: f)))) =
      .ok (h, p) := by
  unfold urlparseHostPath
  have hschall := validScheme_all sch hsch
  have hall : ∀ x ∈ sch ++ ':' :: '/' :: '/' :: (h ++ (p ++ '?' :: (q ++ '#' :: f))),
      unsafeUrlChar x = false := by
    intro x hx
    rcases List.mem_append.mp hx with hx | hx
    · exact schemeChar_not_unsafe x (hschall x hx)
    · rcases List.mem_cons.mp hx with rfl | hx
      · decide
      · rcases List.mem_cons.mp hx with rfl | hx
        · decide
        · rcases List.mem_cons.mp hx with rfl | hx
          · decide
          · rcases List.mem_append.mp hx with hx | hx
            · exact hhc x hx
            · rcases List.mem_append.mp hx with hx | hx
              · exact hpc x hx
              · rcases List.mem_cons.mp hx with rfl | hx
                · decide
                · rcases List.mem_append.mp hx with hx | hx
                  · exact hqc x hx
                  · rcases List.mem_cons.mp hx with rfl | hx
                    · decide
                    · exact hfc x hx
  rw [stripUnsafe_id _ hall]
  rw [splitScheme_valid sch _ hsch]
  have hnet : splitNetloc ('/' :: '/' :: (h ++ (p ++ '?' :: (q ++ '#' :: f)))) =
      .ok (h, p ++ '?' :: (q ++ '#' :: f)) := by
    have hs := fun x hx => (hh x hx).1
    have hb1 : '[' ∉ h := fun hx => (hh _ hx).2.1 rfl
    have hb2 : ']' ∉ h := fun hx => (hh _ hx).2.2 rfl
    rcases hp with rfl | ⟨t, rfl⟩
    · simpa using splitNetloc_pre h '?' (q ++ '#' :: f) hs rfl hb1 hb2
    · have hshape : h ++ ('/' :: t ++ '?' :: (q ++ '#' :: f)) =
          h ++ '/' :: (t ++ '?' :: (q ++ '#' :: f)) := by simp
      rw [hshape]
      simpa using splitNetloc_pre h '/' (t ++ '?' :: (q ++ '#' :: f)) hs rfl hb1 hb2
  simp only [hnet]
  have hfr : '#' ∉ p ++ '?' :: q := by
    intro hmem
    rcases List.mem_append.mp hmem with h1 | h2
    · exact (hp2 _ h1).2.1 rfl
    · rcases List.mem_cons.mp h2 with h3 | h4
      · cases h3
      · exact hq _ h4 rfl
  have hshape2 : p ++ '?' :: (q ++ '#' :: f) = (p ++ '?' :: q) ++ '#' :: f := by simp
  rw [hshape2, dropFrag_pre _ f hfr,
    dropQuery_pre p q (fun hmem => (hp2 _ hmem).1 rfl),
    dropParams_no p (fun hmem => (hp2 _ hmem).2.2 rfl)]

/-- C6 (amended): for a well-formed URL
`scheme://host/path?query#fragment` (scheme of scheme characters starting
with a letter; host ASCII, free of `/?#`, brackets and tab/CR/LF — a
port or userinfo may remain in it; path empty or `/`-led, free of `?#;`
and tab/CR/LF; query free of `#` and tab/CR/LF; fragment free of
tab/CR/LF), `normalize_url` discards the scheme, the query and the
fragment, lower-cases and `www.`-strips the host (keeping any port),
and strips trailing `/` from the path — whose letter case is preserved.
The ASCII / control-character hypotheses confine the statement to the
region where the modelled `urlparse` (including its tab/CR/LF removal)
and lowering coincide exactly with CPython, whose non-ASCII netloc
checks and Unicode lowering lie outside the model.  The claimed results
lower-case the whole key and drop the port; the code does neither: the
examples evaluate to `"example.com/Path"`, not `"example.com/path"`. -/
theorem c6_normalize_components (sch host path query frag : String)
    (hsch : validScheme sch.data = true)
    (hh : ∀ x ∈ host.data, isNetlocStop x = false ∧ x ≠ '[' ∧ x ≠ ']')
    (hp : path.data = [] ∨ ∃ t, path.data = '/' :: t)
    (hp2 : ∀ x ∈ path.data, x ≠ '?' ∧ x ≠ '#' ∧ x ≠ ';')
    (hq : ∀ x ∈ query.data, x ≠ '#')
    (hhc : ∀ x ∈ host.data, unsafeUrlChar x = false ∧ x.toNat < 128)
    (hpc : ∀ x ∈ path.data, unsafeUrlChar x = false)
    (hqc : ∀ x ∈ query.data, unsafeUrlChar x = false)
    (hfc : ∀ x ∈ frag.data, unsafeUrlChar x = false) :
    normalize_url (sch ++ "://" ++ host ++ path ++ "?" ++ query ++ "#" ++ frag) =
      String.mk (stripWWW (toLowerL host.data) ++ rstripSlash path.data) := by
  have hdata : (sch ++ "://" ++ host ++ path ++ "?" ++ query ++ "#" ++ frag).data =
      sch.data ++ ':' :: '/' :: '/' ::
        (host.data ++ (path.data ++ '?' :: (query.data ++ '#' :: frag.data))) := by
    simp [String.data_append]
  have hne : (sch ++ "://" ++ host ++ path ++ "?" ++ query ++ "#" ++ frag) ≠ "" := by
    intro h0
    have h1 : (sch ++ "://" ++ host ++ path ++ "?" ++ query ++ "#" ++ frag).data = [] := by
      rw [h0]
    rw [hdata] at h1
    rcases List.append_eq_nil.mp h1 with ⟨_, h2⟩
    cases h2
  rw [normalize_url, if_neg hne]
  have hsep2 : hasSchemeSep (sch.data ++ ':' :: '/' :: '/' ::
      (host.data ++ (path.data ++ '?' :: (query.data ++ '#' :: frag.data)))) = true :=
    hasSchemeSep_append sch.data _
  simp only [hdata, hsep2, if_true,
    urlparseHostPath_shaped host.data path.data query.data frag.data sch.data
      hsch hh hp hp2 hq (fun x hx => (hhc x hx).1) hpc hqc hfc]

theorem c6_normalize_components_witness :
    normalize_url "HTTP://WWW.Example.com/Path/?a#b" =
      String.mk (stripWWW (toLowerL "WWW.Example.com".data) ++
        rstripSlash "/Path/".data) :=
  c6_normalize_components "HTTP" "WWW.Example.com" "/Path/" "a" "b" (by decide)
    (by decide) (Or.inr ⟨"Path/".data, rfl⟩) (by decide) (by decide)
    (by decide) (by decide) (by decide) (by decide)

theorem c6_counterexample :
    normalize_url "HTTP://WWW.Example.com/Path/" = "example.com/Path" ∧
    normalize_url "example.com/Path" = "example.com/Path" ∧
    ("example.com/Path" : String) ≠ "example.com/path" ∧
    normalize_url "http://example.com:8080/" = "example.com:8080" ∧
    ("example.com:8080" : String) ≠ "example.com" :=
  ⟨by decide, by decide, by decide, by decide, by decide⟩

theorem existing_map_append_isSome (P Q : List Item) (k : String)
    (h : ((existing_map P) k).isSome = true) :
    ((existing_map (P ++ Q)) k).isSome = true := by
  unfold existing_map at h ⊢
  rw [List.foldl_append]
  exact foldl_addItem_isSome Q _ k h

theorem filter_last_decomp {α : Type} (p : α → Bool) (l : List α) (x : α)
    (h : (l.filter p).getLast? = some x) :
    ∃ l₁ l₂, l = l₁ ++ x :: l₂ ∧ p x = true ∧ l₂.filter p = [] ∧
      l.filter p = l₁.filter p ++ [x] := by
  induction l using List.reverseRecOn with
  | nil => simp at h
  | append_singleton l' a ih =>
    by_cases hpa : p a = true
    · rw [List.filter_append] at h
      have hfa : [a].filter p = [a] := by simp [hpa]
      rw [hfa, List.getLast?_concat] at h
      obtain rfl : x = a := by cases h; rfl
      exact ⟨l', [], rfl, hpa, rfl, by rw [List.filter_append, hfa]⟩
    · rw [List.filter_append] at h
      have hfa : [a].filter p = [] := by simp [hpa]
      rw [hfa, List.append_nil] at h
      obtain ⟨l₁, l₂, hdec, hpx, hf2, hfeq⟩ := ih h
      refine ⟨l₁, l₂ ++ [a], by rw [hdec]; simp, hpx, ?_, ?_⟩
      · rw [List.filter_append, hf2, hfa]; rfl
      · rw [List.filter_append, hfa, List.append_nil, hfeq]

theorem runLoop_all_append (fetch : String → FetchOutcome) :
    ∀ (tf : List String) (L : List Item) (M : IdMap),
    (∀ u ∈ tf, u ≠ "") →
    ((tf.map normalize_url).Nodup) →
    (∀ u ∈ tf, (M (normalize_url u)).isSome = false) →
    (∀ u ∈ tf, ∃ it s, fetch u = .ok it ∧ it.url = some s ∧ s ≠ "" ∧
      normalize_url s = normalize_url u) →
    ∃ M', runLoop fetch (L, M) tf = .ok (L ++ tf.map (fetchedItem fetch), M') := by
  intro tf
  induction tf with
  | nil => exact fun L M _ _ _ _ => ⟨M, by simp [runLoop]⟩
  | cons u rest ih =>
    intro L M h1 h2 h3 h4
    obtain ⟨it, s, hf, hurl, hs, hns⟩ := h4 u (List.mem_cons_self u rest)
    have hstep : mergeStep fetch (L, M) u =
        .ok (L ++ [{ it with requested_url := some u }],
          updatedMap M (normalize_url u) { it with requested_url := some u }) := by
      simp only [mergeStep, hf, h3 u (List.mem_cons_self u rest),
        Bool.false_eq_true, if_false]
    have hnotin : normalize_url u ∉ (rest.map normalize_url) := by
      have := h2
      rw [List.map_cons, List.nodup_cons] at this
      exact this.1
    have h3' : ∀ w ∈ rest,
        ((updatedMap M (normalize_url u) { it with requested_url := some u })
          (normalize_url w)).isSome = false := by
      intro w hw
      have hwu : normalize_url w ≠ normalize_url u := by
        intro he
        exact hnotin (he ▸ List.mem_map_of_mem normalize_url hw)
      unfold updatedMap
      simp only [hurl]
      rw [if_pos hs, hns]
      simp only [setKey, if_neg hwu]
      exact h3 w (List.mem_cons_of_mem _ hw)
    obtain ⟨M', hrest⟩ := ih (L ++ [{ it with requested_url := some u }])
      (updatedMap M (normalize_url u) { it with requested_url := some u })
      (fun w hw => h1 w (List.mem_cons_of_mem _ hw))
      (by rw [List.map_cons, List.nodup_cons] at h2; exact h2.2)
      h3'
      (fun w hw => h4 w (List.mem_cons_of_mem _ hw))
    refine ⟨M', ?_⟩
    simp only [runLoop, hstep]
    rw [hrest]
    have hFu : fetchedItem fetch u = { it with requested_url := some u } := by
      simp [fetchedItem, hf]
    rw [List.map_cons, hFu, List.append_assoc, List.singleton_append]

theorem resumeStart_eq (existing : List Item) (urls : List String)
    (lastIt : Item) (i : ℕ)
    (hlast : existing.getLast? = some lastIt)
    (hfind : findIdxFrom (fun u => some (normalize_url u) == itemKey lastIt) urls 0 =
      some i) :
    resumeStart false existing urls = (i + 1, false) := by
  simp [resumeStart, hlast, hfind]

/-- C8 (amended): rerunning is idempotent when the URL list has pairwise
distinct normalized keys and the upstream (unchanged across runs) answers
every URL successfully with a final URL normalizing to the same key as
the requested URL: the second run — same list, resume on, force off —
performs zero fetch operations and leaves the persisted set unchanged.
Without these conditions idempotence fails: a trailing permanently
failing URL is refetched on the second run, a duplicated key makes the
resume point overshoot backwards, and a redirecting final URL can make a
later run refetch a dropped record's URL. -/
theorem c8_rerun_idempotent (fetch : String → FetchOutcome) (urls : List String)
    (prior S : List Item) (n : ℕ)
    (hne : ∀ u ∈ urls, u ≠ "")
    (hnd : (urls.map normalize_url).Nodup)
    (hok : ∀ u ∈ urls, ∃ it s, fetch u = .ok it ∧ it.url = some s ∧ s ≠ "" ∧
      normalize_url s = normalize_url u)
    (hrun : run fetch false false urls prior = .ok (S, n)) :
    run fetch false false urls S = .ok (S, 0) := by
  have htfsub : ∀ u ∈ (tailUrls false prior urls).filter
      (toFetchPred false (existing_map prior)), u ∈ urls := by
    intro u hu
    exact List.drop_subset _ urls (List.mem_of_mem_filter hu)
  have h1 : ∀ u ∈ (tailUrls false prior urls).filter
      (toFetchPred false (existing_map prior)), u ≠ "" :=
    fun u hu => hne u (htfsub u hu)
  have htfsl : ((tailUrls false prior urls).filter
      (toFetchPred false (existing_map prior))).Sublist urls :=
    (List.filter_sublist _).trans (List.drop_sublist _ _)
  have h2 : (((tailUrls false prior urls).filter
      (toFetchPred false (existing_map prior))).map normalize_url).Nodup :=
    hnd.sublist (htfsl.map normalize_url)
  have h3 : ∀ u ∈ (tailUrls false prior urls).filter
      (toFetchPred false (existing_map prior)),
      ((existing_map prior) (normalize_url u)).isSome = false := by
    intro u hu
    have hnone := List.of_mem_filter hu
    simp only [toFetchPred, Bool.false_or] at hnone
    rw [Option.isNone_iff_eq_none] at hnone
    rw [hnone]
    rfl
  obtain ⟨Mf, hloop⟩ := runLoop_all_append fetch
    ((tailUrls false prior urls).filter (toFetchPred false (existing_map prior)))
    prior (existing_map prior) h1 h2 h3 (fun u hu => hok u (htfsub u hu))
  have hrun1 : run fetch false false urls prior =
      .ok (prior ++ ((tailUrls false prior urls).filter
        (toFetchPred false (existing_map prior))).map (fetchedItem fetch),
        ((tailUrls false prior urls).filter
          (toFetchPred false (existing_map prior))).length) := by
    simp only [run, hloop]
  rw [hrun1] at hrun
  obtain ⟨hS, hn⟩ := ok_pair_inj hrun
  cases htf : (tailUrls false prior urls).filter (toFetchPred false (existing_map prior)) with
  | nil =>
    rw [htf] at hS
    simp only [List.map_nil, List.append_nil] at hS
    rw [htf] at hrun1
    simp only [List.map_nil, List.append_nil, List.length_nil] at hrun1
    rw [← hS]
    exact hrun1
  | cons u0 tfrest =>
    have htfne : (tailUrls false prior urls).filter
        (toFetchPred false (existing_map prior)) ≠ [] := by rw [htf]; simp
    obtain ⟨w, hw⟩ := Option.isSome_iff_exists.mp
      (List.getLast?_isSome.mpr htfne)
    obtain ⟨t1, t2, htail1, hpw, hfilt2, hfilteq⟩ :=
      filter_last_decomp (toFetchPred false (existing_map prior))
        (tailUrls false prior urls) w hw
    have hwtf : w ∈ (tailUrls false prior urls).filter
        (toFetchPred false (existing_map prior)) := by
      rw [hfilteq]
      exact List.mem_append.mpr (Or.inr (List.mem_singleton.mpr rfl))
    have hwurls : w ∈ urls := htfsub w hwtf
    have hwne : w ≠ "" := hne w hwurls
    have hurls : urls = (urls.take (resumeStart false prior urls).1 ++ t1) ++ w :: t2 := by
      rw [List.append_assoc, ← htail1]
      exact (List.take_append_drop _ urls).symm
    have hSlast : S.getLast? = some (fetchedItem fetch w) := by
      rw [← hS, hfilteq, List.map_append]
      rw [show (List.map (fetchedItem fetch) [w]) = [fetchedItem fetch w] from rfl]
      rw [← List.append_assoc]
      exact List.getLast?_concat _
    have hkey : itemKey (fetchedItem fetch w) = some (normalize_url w) := by
      obtain ⟨itw, sw, hfw, hurlw, hsw, hnsw⟩ := hok w hwurls
      simp [fetchedItem, hfw, itemKey, pyOr, strTruthy, hwne]
    have hnd2 : ((List.map normalize_url (urls.take (resumeStart false prior urls).1 ++ t1)) ++
        (normalize_url w :: List.map normalize_url t2)).Nodup := by
      have htmp := hnd
      conv at htmp => rw [hurls]
      rwa [List.map_append, List.map_cons] at htmp
    have hdisj := List.disjoint_of_nodup_append hnd2
    have hbefore : ∀ a ∈ urls.take (resumeStart false prior urls).1 ++ t1,
        (fun v => some (normalize_url v) == itemKey (fetchedItem fetch w)) a = false := by
      intro a ha
      rw [hkey]
      simp only [beq_eq_false_iff_ne, ne_eq, Option.some.injEq]
      intro he
      exact hdisj (List.mem_map_of_mem normalize_url ha)
        (he ▸ List.mem_cons_self _ _)
    have hfind : findIdxFrom
        (fun v => some (normalize_url v) == itemKey (fetchedItem fetch w)) urls 0 =
        some ((urls.take (resumeStart false prior urls).1 ++ t1).length) := by
      conv_lhs => rw [hurls]
      rw [findIdxFrom_first _ _ t2 w 0 hbefore (by simp [hkey])]
      simp
    have hSne : S ≠ [] := by
      intro h0
      rw [h0] at hSlast
      cases hSlast
    have hrs2 : resumeStart false S urls =
        ((urls.take (resumeStart false prior urls).1 ++ t1).length + 1, false) :=
      resumeStart_eq S urls (fetchedItem fetch w) _ hSlast hfind
    have htail2 : tailUrls false S urls = t2 := by
      rw [tailUrls, hrs2]
      have hdl := drop_append_len (urls.take (resumeStart false prior urls).1 ++ t1) w t2
      rw [← hurls] at hdl
      exact hdl
    have htf2 : t2.filter (toFetchPred false (existing_map S)) = [] := by
      rw [List.filter_eq_nil_iff]
      intro u hu
      have hpredu : toFetchPred false (existing_map prior) u = false := by
        cases hc : toFetchPred false (existing_map prior) u with
        | false => rfl
        | true =>
          have hmem : u ∈ t2.filter (toFetchPred false (existing_map prior)) :=
            List.mem_filter.mpr ⟨hu, hc⟩
          rw [hfilt2] at hmem
          cases hmem
      have hM0 : ((existing_map prior) (normalize_url u)).isSome = true := by
        simp only [toFetchPred, Bool.false_or] at hpredu
        cases hcase : (existing_map prior) (normalize_url u) with
        | none => rw [hcase] at hpredu; cases hpredu
        | some v => rfl
      have hMS : ((existing_map S) (normalize_url u)).isSome = true := by
        rw [← hS]
        exact existing_map_append_isSome prior _ _ hM0
      intro hpred2
      cases hcase : (existing_map S) (normalize_url u) with
      | none => rw [hcase] at hMS; cases hMS
      | some v =>
        simp only [toFetchPred, Bool.false_or, hcase, Option.isNone_some,
          Bool.false_eq_true] at hpred2
    have hfinal : (tailUrls false S urls).filter (toFetchPred false (existing_map S)) = [] := by
      rw [htail2]
      exact htf2
    simp only [run, hfinal, runLoop, List.length_nil]

theorem c8_rerun_idempotent_witness :
    run fetchC8W false false ["a.com", "b.com"]
      [⟨some "a.com", some "http://a.com", 1⟩, ⟨some "b.com", some "http://b.com", 2⟩] =
      .ok ([⟨some "a.com", some "http://a.com", 1⟩,
            ⟨some "b.com", some "http://b.com", 2⟩], 0) :=
  c8_rerun_idempotent fetchC8W ["a.com", "b.com"] []
    [⟨some "a.com", some "http://a.com", 1⟩, ⟨some "b.com", some "http://b.com", 2⟩] 2
    (by decide) (by decide)
    (fun u hu => by
      rcases List.mem_cons.mp hu with rfl | hu2
      · exact ⟨⟨none, some "http://a.com", 1⟩, "http://a.com", rfl, rfl,
          by decide, by decide⟩
      · rcases List.mem_cons.mp hu2 with rfl | hu3
        · exact ⟨⟨none, some "http://b.com", 2⟩, "http://b.com", rfl, rfl,
            by decide, by decide⟩
        · cases hu3)
    rfl

theorem c8_counterexample :
    run fetchC8 false false ["a.com", "b.com"] [] =
      .ok ([⟨some "a.com", some "http://a.com", 1⟩], 2) ∧
    run fetchC8 false false ["a.com", "b.com"] [⟨some "a.com", some "http://a.com", 1⟩] =
      .ok ([⟨some "a.com", some "http://a.com", 1⟩], 1) ∧
    run fetchC8 false false ["a.com", "b.com"] [⟨some "a.com", some "http://a.com", 1⟩] ≠
      .ok ([⟨some "a.com", some "http://a.com", 1⟩], 0) :=
  ⟨rfl, rfl, by decide⟩
